import Mathlib

/-
  Verification of the UKPS Domains lookup core
  (src/libraries/python/src/core.py of govuk-digital-backbone/ukps-domains).

  Python strings are modelled as lists of characters; Python `None` for an
  optional argument or a missing/null JSON field is modelled with `Option`.
  JSON documents handled opaquely by the loader are modelled as strings;
  the organisation directory records are modelled as association lists
  (a Python dict is truthy exactly when it is non-empty).
-/

abbrev Str := List Char

deriving instance DecidableEq for Except

/- ---------------- Python string primitives ---------------- -/

/-- Left half of Python `str.strip()`: drop leading whitespace. -/
def stripLeft (l : Str) : Str := l.dropWhile Char.isWhitespace

/-- Right half of Python `str.strip()`: drop trailing whitespace. -/
def stripRight (l : Str) : Str := (l.reverse.dropWhile Char.isWhitespace).reverse

/-- Python `str.strip()`: drop surrounding whitespace. -/
def pyStrip (l : Str) : Str := stripRight (stripLeft l)

/-- Python `str.lower()` (ASCII case folding). -/
def pyLower (l : Str) : Str := l.map Char.toLower

/-- Python `str.rstrip(".")`: drop every trailing `'.'`. -/
def rstripDots (l : Str) : Str := (l.reverse.dropWhile (fun c => c = '.')).reverse

/- ---------------- Data model ---------------- -/

/-- One record of the organisation directory (`govuk_organisations.json`),
an opaque JSON object; as a Python dict it is truthy iff non-empty. -/
abbrev OrgRec := List (Str × Str)

/-- One registry record of `user_domains.json`.  `domain_pattern = none`
models a missing or `null` field.  `govuk_data` is the field written by
enrichment (core.py line 151); it is absent (`none`) in loaded data. -/
structure DomainEntry where
  domain_pattern : Option Str
  organisation_id : Option Str
  notes : Str
  govuk_data : Option OrgRec
deriving DecidableEq

/-- The in-memory state read by the lookup engine: the parsed
`user_domains.json` list, the parsed `govuk_organisations.json` mapping and
the `data_source` tag (`none` models Python `None`). -/
structure EngineState where
  entries : List DomainEntry
  orgDir : List (Str × OrgRec)
  data_source : Option Str
deriving DecidableEq

inductive LookupErr where
  /-- the `ValueError("Domain invalid")` of `_normalise_domain` -/
  | invalidDomain
  /-- the `RuntimeError("Data not loaded...")` guard of lookups -/
  | notLoaded
deriving DecidableEq

/-- Python truthiness of an optional string (`None` and `""` are falsy). -/
def truthyStr : Option Str → Bool
  | none => false
  | some s => !s.isEmpty

/-- Python `entry.get("domain_pattern", "")`: a missing/null field reads as `""`. -/
def patternOf (e : DomainEntry) : Str := e.domain_pattern.getD []

/-- Python dict lookup with an empty-dict default on the organisation directory. -/
def lookupOrg (dir : List (Str × OrgRec)) (k : Str) : OrgRec :=
  match dir.find? (fun kv => kv.1 = k) with
  | none => []
  | some kv => kv.2

/- ---------------- Lookup engine (core.py 102-157) ---------------- -/

/-- Model of `_normalise_domain` (core.py 102-108): strip whitespace, lower-case,
strip all trailing dots; invalid when the argument is `None` or the result
has no `'.'` (which covers the empty result). -/
def _normalise_domain (domain : Option Str) : Except LookupErr Str :=
  match domain with
  | none => .error .invalidDomain
  | some dom =>
    let r := rstripDots (pyLower (pyStrip dom))
    if '.' ∈ r then .ok r else .error .invalidDomain

/-- The wildcard-candidate test of the scan (core.py 140-142):
`pattern.startswith("*.")` and `domain.endswith(pattern[1:])`. -/
def wcCandidate (pattern domain : Str) : Bool :=
  ['*', '.'].isPrefixOf pattern && (pattern.drop 1).isSuffixOf domain

/-- The scan loop of `organisational_context_for_domain` (core.py 134-146).
`i` is the index of the head of the remaining list, `maybe` the current
wildcard candidate (`maybe_res`) with its index.  An exact match returns
immediately (the `break`); a wildcard match replaces the candidate. -/
def scanFrom (d : Str) : List DomainEntry → Nat → Option (Nat × DomainEntry) →
    Option (Nat × DomainEntry)
  | [], _, maybe => maybe
  | e :: rest, i, maybe =>
    let p := patternOf e
    if p = [] then scanFrom d rest (i + 1) maybe
    else if d = p then some (i, e)
    else if wcCandidate p d then scanFrom d rest (i + 1) (some (i, e))
    else scanFrom d rest (i + 1) maybe

def scanEntries (d : Str) (l : List DomainEntry) : Option (Nat × DomainEntry) :=
  scanFrom d l 0 none

/-- The enrichment assignment into the matched entry (core.py 151). -/
def enrichWith (e : DomainEntry) (g : OrgRec) : DomainEntry :=
  { e with govuk_data := some g }

/-- Model of `organisational_context_for_domain` (core.py 125-153).  Returns the
result together with the post-call engine state: enrichment assigns into the
matched entry object, which is an alias of the stored registry entry, so the
stored list is updated at the matched index. -/
def organisational_context_for_domain (st : EngineState) (domain : Option Str)
    (with_govuk_data : Bool) : Except LookupErr (Option DomainEntry × EngineState) :=
  if truthyStr st.data_source then
    match _normalise_domain domain with
    | .error err => .error err
    | .ok d =>
      match scanEntries d st.entries with
      | none => .ok (none, st)
      | some (i, e) =>
        if truthyStr e.organisation_id && with_govuk_data then
          let gov := lookupOrg st.orgDir (e.organisation_id.getD [])
          if gov = [] then .ok (some e, st)
          else .ok (some (enrichWith e gov),
                    { st with entries := st.entries.set i (enrichWith e gov) })
        else .ok (some e, st)
  else .error .notLoaded

/-- Model of `_extract_domain_from_email` (core.py 115-118): `None` when the email is
falsy or has no `"@"`, otherwise `email.rsplit("@", 1)[1]`, the part after
the last `"@"`. -/
def _extract_domain_from_email (email : Option Str) : Option Str :=
  match email with
  | none => none
  | some e =>
    if e = [] ∨ '@' ∉ e then none
    else some ((e.reverse.takeWhile (fun c => c != '@')).reverse)

/-- Model of `organisational_context_for_email` (core.py 155-157). -/
def organisational_context_for_email (st : EngineState) (email : Option Str)
    (with_govuk_data : Bool) : Except LookupErr (Option DomainEntry × EngineState) :=
  organisational_context_for_domain st (_extract_domain_from_email email) with_govuk_data

/-- Model of `is_ukps_domain` (core.py 110-113): resolve without enrichment, then
`ctx is not None and ctx.get("domain_pattern", None) is not None`. -/
def is_ukps_domain (st : EngineState) (domain : Option Str) : Except LookupErr Bool :=
  match organisational_context_for_domain st domain false with
  | .error err => .error err
  | .ok (ctx, _) =>
    .ok (match ctx with
         | none => false
         | some e => e.domain_pattern.isSome)

/-- Model of `is_ukps_email` (core.py 120-123). -/
def is_ukps_email (st : EngineState) (email : Option Str) : Except LookupErr Bool :=
  match organisational_context_for_email st email false with
  | .error err => .error err
  | .ok (ctx, _) =>
    .ok (match ctx with
         | none => false
         | some e => e.domain_pattern.isSome)

/-- Erase the enrichment field, to state which part of an entry a lookup may
touch. -/
def sansGov (e : DomainEntry) : DomainEntry := { e with govuk_data := none }

/-- The part of a lookup outcome the spec calls behaviour: the result and
the data both lookups read, without the provenance tag. -/
def lookupView (r : Except LookupErr (Option DomainEntry × EngineState)) :
    Except LookupErr (Option DomainEntry × List DomainEntry × List (Str × OrgRec)) :=
  r.map (fun out => (out.1, out.2.entries, out.2.orgDir))

/- ---------------- Registry loader (core.py 44-100) ---------------- -/

/-- The `_data` dictionary: file name ↦ loaded JSON document (opaque). -/
abbrev DataDict := List (Str × Str)

/-- Python dict assignment `d[k] = v` (update in place, or append). -/
def setDict (d : DataDict) (k v : Str) : DataDict :=
  match d with
  | [] => [(k, v)]
  | (k', v') :: rest => if k' = k then (k, v) :: rest else (k', v') :: setDict rest k v

/-- The loader state: `self._data` and `self.data_source`. -/
structure LoaderState where
  data : DataDict
  data_source : Option Str
deriving DecidableEq

/-- The per-file loop shared by `_fetch_remote` (core.py 72-84) and
`_load_local` (89-100): each successful file is written into `_data` at once
and `res` is set; a failure sets `res` false and breaks.  `src` gives every
file's outcome (`none` models the `except` path). -/
def fetchLoop (src : Str → Option Str) : List Str → DataDict → Bool → Bool × DataDict
  | [], d, res => (res, d)
  | f :: rest, d, _ =>
    match src f with
    | none => (false, d)
    | some doc => fetchLoop src rest (setDict d f doc) true

/-- Model of `_fetch_remote` (core.py 63-84): refuses when the `requests` library is
absent or remote access is not allowed, else runs the fetch loop. -/
def _fetch_remote (useRequests allow_remote : Bool) (remote : Str → Option Str)
    (files : List Str) (d : DataDict) : Bool × DataDict :=
  if !useRequests then (false, d)
  else if !allow_remote then (false, d)
  else fetchLoop remote files d false

/-- Model of `_load_local` (core.py 86-100). -/
def _load_local (localSrc : Str → Option Str) (files : List Str) (d : DataDict) :
    Bool × DataDict :=
  fetchLoop localSrc files d false

def remoteTag : Str := "remote".toList
def localTag : Str := "local".toList

/-- The configured document list (config.py, `UKPSDOMAINS_FILES`). -/
def UKPSDOMAINS_FILES : List Str :=
  ["user_domains.json".toList, "govuk_organisations.json".toList]

/-- Model of `refresh` (core.py 44-60), with the `allow_remote` argument already
folded into `allow_remote`.  The Boolean reports success; `false` is the
`RuntimeError` (spec: `DataUnavailable`), and the returned state carries the
writes the two loops performed before failing. -/
def refresh (useRequests allow_remote : Bool) (remote localSrc : Str → Option Str)
    (files : List Str) (st : LoaderState) : Bool × LoaderState :=
  let r := _fetch_remote useRequests allow_remote remote files st.data
  if r.1 then (true, ⟨r.2, some remoteTag⟩)
  else
    let l := _load_local localSrc files r.2
    if l.1 then (true, ⟨l.2, some localTag⟩)
    else (false, ⟨l.2, st.data_source⟩)

/-- The remote attempt succeeds: library present, access allowed and every
required document fetches. -/
def remoteAttemptOk (useRequests allow_remote : Bool) (remote : Str → Option Str)
    (files : List Str) : Prop :=
  useRequests = true ∧ allow_remote = true ∧ ∀ f ∈ files, (remote f).isSome = true

/-- The local attempt succeeds: every required document reads. -/
def localAttemptOk (localSrc : Str → Option Str) (files : List Str) : Prop :=
  ∀ f ∈ files, (localSrc f).isSome = true

/- ---------------- Spec-side variant for C4 ---------------- -/

/-- Modelled from the claim's words: strip a single trailing `"."`. -/
def stripSingleTrailingDot (l : Str) : Str :=
  if l.getLast? = some '.' then l.dropLast else l

/-- Modelled from the claim's words: normalisation that strips a single
trailing dot instead of all of them. -/
def normaliseSingleDot (domain : Option Str) : Except LookupErr Str :=
  match domain with
  | none => .error .invalidDomain
  | some dom =>
    let r := stripSingleTrailingDot (pyLower (pyStrip dom))
    if '.' ∈ r then .ok r else .error .invalidDomain

/- ---------------- Concrete data for witnesses ---------------- -/

def entryWildcard : DomainEntry :=
  ⟨some "*.gov.uk".toList, none, "wildcard entry".toList, none⟩

def entryExact : DomainEntry :=
  ⟨some "a.gov.uk".toList, some "X1".toList, "exact entry".toList, none⟩

def entryPlain : DomainEntry :=
  ⟨some "gov.uk".toList, none, "plain entry".toList, none⟩

def orgDir0 : List (Str × OrgRec) :=
  [("X1".toList, [("name".toList, "Org One".toList)])]

def st0 : EngineState := ⟨[entryWildcard, entryExact, entryPlain], orgDir0, some localTag⟩

def udF : Str := "user_domains.json".toList
def goF : Str := "govuk_organisations.json".toList

/-- A previously loaded loader state holding the old copy of each document. -/
def priorSt : LoaderState := ⟨[(udF, "oldU".toList), (goF, "oldG".toList)], some localTag⟩

/-- A remote source where the first document fetches and the second fails. -/
def remSrc : Str → Option Str := fun f => if f = udF then some "remU".toList else none

/-- A local source where every read fails. -/
def locSrc : Str → Option Str := fun _ => none

/-- The directory record that enrichment attaches in the lookup scenarios. -/
def govRec0 : OrgRec := [("name".toList, "Org One".toList)]

/-- The engine state after an enriching lookup of `"a.gov.uk"` on `st0`:
the stored exact entry has `govuk_data` attached in place. -/
def stEnriched : EngineState :=
  ⟨[entryWildcard, enrichWith entryExact govRec0, entryPlain], orgDir0, some localTag⟩

/- ---------------- Helper lemmas ---------------- -/

theorem truthy_some_of_ne {s : Str} (h : s ≠ []) : truthyStr (some s) = true := by
  cases s with
  | nil => exact absurd rfl h
  | cons c cs => rfl

theorem norm_ok_mem_dot {dom : Option Str} {d : Str}
    (h : _normalise_domain dom = .ok d) : '.' ∈ d := by
  cases dom with
  | none => simp [_normalise_domain] at h
  | some s =>
    simp only [_normalise_domain] at h
    split at h
    · cases h; assumption
    · cases h

theorem norm_ok_ne_nil {dom : Option Str} {d : Str}
    (h : _normalise_domain dom = .ok d) : d ≠ [] :=
  List.ne_nil_of_mem (norm_ok_mem_dot h)

theorem wc_pattern_ne_nil {p d : Str} (h : wcCandidate p d = true) : p ≠ [] := by
  intro hp
  subst hp
  simp [wcCandidate, List.isPrefixOf] at h

theorem setSame : ∀ (l : List α) (i : Nat) (a : α), l[i]? = some a → l.set i a = l
  | [], _, _, h => by simp at h
  | x :: xs, 0, a, h => by
      simp at h
      simp [List.set, h]
  | x :: xs, i + 1, a, h => by
      simp at h
      simp [List.set, setSame xs i a h]

theorem scanFrom_exactFirst {d : Str} (hd : d ≠ []) :
    ∀ (l : List DomainEntry) (k i : Nat) (maybe : Option (Nat × DomainEntry))
      (e : DomainEntry),
      l[i]? = some e → patternOf e = d →
      (∀ j, j < i → Option.map patternOf l[j]? ≠ some d) →
      scanFrom d l k maybe = some (k + i, e) := by
  intro l
  induction l with
  | nil => intro k i maybe e hget _ _; simp at hget
  | cons a t ih =>
    intro k i maybe e hget hpat hfirst
    cases i with
    | zero =>
      simp at hget
      subst hget
      simp [scanFrom, hpat, hd]
    | succ i' =>
      have hne0 : patternOf a ≠ d := by
        have h0 := hfirst 0 (Nat.succ_pos i')
        simpa using h0
      have hget' : t[i']? = some e := by simpa using hget
      have hfirst' : ∀ j, j < i' → Option.map patternOf t[j]? ≠ some d := by
        intro j hj
        have := hfirst (j + 1) (Nat.succ_lt_succ hj)
        simpa using this
      have harith : k + 1 + i' = k + (i' + 1) := by omega
      simp only [scanFrom]
      by_cases hp : patternOf a = []
      · rw [if_pos hp, ih (k + 1) i' maybe e hget' hpat hfirst', harith]
      · rw [if_neg hp, if_neg (fun h => hne0 h.symm)]
        by_cases hw : wcCandidate (patternOf a) d = true
        · rw [if_pos hw, ih (k + 1) i' (some (k, a)) e hget' hpat hfirst', harith]
        · rw [if_neg hw, ih (k + 1) i' maybe e hget' hpat hfirst', harith]

theorem scanFrom_noMatch {d : Str} :
    ∀ (l : List DomainEntry) (k : Nat) (maybe : Option (Nat × DomainEntry)),
      (∀ e ∈ l, patternOf e ≠ d ∧ wcCandidate (patternOf e) d = false) →
      scanFrom d l k maybe = maybe := by
  intro l
  induction l with
  | nil => intro k maybe _; rfl
  | cons a t ih =>
    intro k maybe h
    have ha := h a (List.mem_cons_self a t)
    have ht : ∀ e ∈ t, patternOf e ≠ d ∧ wcCandidate (patternOf e) d = false :=
      fun e he => h e (List.mem_cons_of_mem a he)
    simp only [scanFrom]
    by_cases hp : patternOf a = []
    · rw [if_pos hp, ih (k + 1) maybe ht]
    · rw [if_neg hp, if_neg (fun hh => ha.1 hh.symm),
        if_neg (by simp [ha.2]), ih (k + 1) maybe ht]

theorem scanFrom_lastWc {d : Str} :
    ∀ (l : List DomainEntry) (k i : Nat) (maybe : Option (Nat × DomainEntry))
      (e : DomainEntry),
      (∀ e' ∈ l, patternOf e' ≠ d) →
      l[i]? = some e → wcCandidate (patternOf e) d = true →
      (∀ j, i < j → ∀ e', l[j]? = some e' → wcCandidate (patternOf e') d = false) →
      scanFrom d l k maybe = some (k + i, e) := by
  intro l
  induction l with
  | nil => intro k i maybe e _ hget; simp at hget
  | cons a t ih =>
    intro k i maybe e hno hget hwc hlast
    have hnoT : ∀ e' ∈ t, patternOf e' ≠ d :=
      fun e' he => hno e' (List.mem_cons_of_mem a he)
    cases i with
    | zero =>
      simp at hget
      subst hget
      have hp : patternOf a ≠ [] := wc_pattern_ne_nil hwc
      have htail : ∀ e' ∈ t, patternOf e' ≠ d ∧ wcCandidate (patternOf e') d = false := by
        intro e' he
        refine ⟨hnoT e' he, ?_⟩
        obtain ⟨j, hj⟩ := List.mem_iff_getElem?.mp he
        exact hlast (j + 1) (Nat.succ_pos j) e' (by simpa using hj)
      simp only [scanFrom]
      rw [if_neg hp, if_neg (fun hh => hno a (List.mem_cons_self a t) hh.symm),
        if_pos hwc, scanFrom_noMatch t (k + 1) (some (k, a)) htail]
      simp
    | succ i' =>
      have hget' : t[i']? = some e := by simpa using hget
      have hlast' : ∀ j, i' < j → ∀ e', t[j]? = some e' →
          wcCandidate (patternOf e') d = false := by
        intro j hj e' hg
        exact hlast (j + 1) (Nat.succ_lt_succ hj) e' (by simpa using hg)
      have harith : k + 1 + i' = k + (i' + 1) := by omega
      simp only [scanFrom]
      by_cases hp : patternOf a = []
      · rw [if_pos hp, ih (k + 1) i' maybe e hnoT hget' hwc hlast', harith]
      · rw [if_neg hp, if_neg (fun hh => hno a (List.mem_cons_self a t) hh.symm)]
        by_cases hw : wcCandidate (patternOf a) d = true
        · rw [if_pos hw, ih (k + 1) i' (some (k, a)) e hnoT hget' hwc hlast', harith]
        · rw [if_neg hw, ih (k + 1) i' maybe e hnoT hget' hwc hlast', harith]

theorem scanFrom_uniqueExact {d : Str} (hd : d ≠ []) :
    ∀ (l : List DomainEntry) (k : Nat) (maybe : Option (Nat × DomainEntry))
      (e : DomainEntry),
      e ∈ l → patternOf e = d →
      (∀ e' ∈ l, patternOf e' = d → e' = e) →
      ∃ j, scanFrom d l k maybe = some (j, e) := by
  intro l
  induction l with
  | nil => intro k maybe e hmem; simp at hmem
  | cons a t ih =>
    intro k maybe e hmem hpat huniq
    have huniqT : ∀ e' ∈ t, patternOf e' = d → e' = e :=
      fun e' he hp => huniq e' (List.mem_cons_of_mem a he) hp
    by_cases ha : patternOf a = d
    · have hae : a = e := huniq a (List.mem_cons_self a t) ha
      subst hae
      refine ⟨k, ?_⟩
      simp only [scanFrom]
      rw [if_neg (ha ▸ hd), if_pos ha.symm]
    · have hmemT : e ∈ t := by
        cases List.mem_cons.mp hmem with
        | inl h => exact absurd (h ▸ hpat) ha
        | inr h => exact h
      simp only [scanFrom]
      by_cases hp : patternOf a = []
      · rw [if_pos hp]; exact ih (k + 1) maybe e hmemT hpat huniqT
      · rw [if_neg hp, if_neg (fun hh => ha hh.symm)]
        by_cases hw : wcCandidate (patternOf a) d = true
        · rw [if_pos hw]; exact ih (k + 1) (some (k, a)) e hmemT hpat huniqT
        · rw [if_neg hw]; exact ih (k + 1) maybe e hmemT hpat huniqT

theorem scanFrom_sound {d : Str} :
    ∀ (l : List DomainEntry) (k : Nat) (maybe : Option (Nat × DomainEntry))
      (j : Nat) (e : DomainEntry),
      scanFrom d l k maybe = some (j, e) →
      maybe = some (j, e) ∨
        ∃ i, l[i]? = some e ∧ j = k + i ∧ patternOf e ≠ [] ∧
          (patternOf e = d ∨ wcCandidate (patternOf e) d = true) := by
  intro l
  induction l with
  | nil => intro k maybe j e h; exact Or.inl h
  | cons a t ih =>
    intro k maybe j e h
    simp only [scanFrom] at h
    by_cases hp : patternOf a = []
    · rw [if_pos hp] at h
      cases ih (k + 1) maybe j e h with
      | inl hl => exact Or.inl hl
      | inr hr =>
        obtain ⟨i, hget, hj, hpe, hm⟩ := hr
        exact Or.inr ⟨i + 1, by simpa using hget, by omega, hpe, hm⟩
    · rw [if_neg hp] at h
      by_cases hx : d = patternOf a
      · rw [if_pos hx] at h
        simp only [Option.some.injEq, Prod.mk.injEq] at h
        obtain ⟨hjk, hae⟩ := h
        subst hae
        exact Or.inr ⟨0, by simp, by omega, hp, Or.inl hx.symm⟩
      · rw [if_neg hx] at h
        by_cases hw : wcCandidate (patternOf a) d = true
        · rw [if_pos hw] at h
          cases ih (k + 1) (some (k, a)) j e h with
          | inl hl =>
            simp only [Option.some.injEq, Prod.mk.injEq] at hl
            obtain ⟨hjk, hae⟩ := hl
            subst hae
            exact Or.inr ⟨0, by simp, by omega, hp, Or.inr hw⟩
          | inr hr =>
            obtain ⟨i, hget, hj, hpe, hm⟩ := hr
            exact Or.inr ⟨i + 1, by simpa using hget, by omega, hpe, hm⟩
        · rw [if_neg hw] at h
          cases ih (k + 1) maybe j e h with
          | inl hl => exact Or.inl hl
          | inr hr =>
            obtain ⟨i, hget, hj, hpe, hm⟩ := hr
            exact Or.inr ⟨i + 1, by simpa using hget, by omega, hpe, hm⟩

theorem scanEntries_sound {d : Str} {l : List DomainEntry} {j : Nat}
    {e : DomainEntry} (h : scanEntries d l = some (j, e)) :
    l[j]? = some e ∧ patternOf e ≠ [] ∧
      (patternOf e = d ∨ wcCandidate (patternOf e) d = true) := by
  cases scanFrom_sound l 0 none j e h with
  | inl hl => cases hl
  | inr hr =>
    obtain ⟨i, hget, hj, hpe, hm⟩ := hr
    have : i = j := by omega
    subst this
    exact ⟨hget, hpe, hm⟩

theorem resolve_eq_of_scan (st : EngineState) (dom : Option Str) (w : Bool)
    (d : Str) (hload : truthyStr st.data_source = true)
    (hnorm : _normalise_domain dom = .ok d) :
    organisational_context_for_domain st dom w =
      match scanEntries d st.entries with
      | none => .ok (none, st)
      | some (i, e) =>
        if truthyStr e.organisation_id && w then
          if lookupOrg st.orgDir (e.organisation_id.getD []) = [] then .ok (some e, st)
          else .ok (some (enrichWith e (lookupOrg st.orgDir (e.organisation_id.getD []))), { st with entries := st.entries.set i (enrichWith e (lookupOrg st.orgDir (e.organisation_id.getD []))) })
        else .ok (some e, st) := by
  simp only [organisational_context_for_domain, hload, hnorm, if_true]

theorem resolve_of_scan_some (st : EngineState) (dom : Option Str) (w : Bool)
    (d : Str) (i : Nat) (e : DomainEntry)
    (hload : truthyStr st.data_source = true)
    (hnorm : _normalise_domain dom = .ok d)
    (hscan : scanEntries d st.entries = some (i, e)) :
    ∃ r st', organisational_context_for_domain st dom w = .ok (some r, st') ∧
      (r = e ∨ ∃ g, r = enrichWith e g) ∧ (w = false → r = e ∧ st' = st) := by
  simp only [resolve_eq_of_scan st dom w d hload hnorm, hscan]
  by_cases hc : (truthyStr e.organisation_id && w) = true
  · have hw : w = true := by cases w <;> simp_all
    by_cases hg : lookupOrg st.orgDir (e.organisation_id.getD []) = []
    · rw [if_pos hc, if_pos hg]
      exact ⟨e, st, rfl, Or.inl rfl, fun hwf => by simp [hwf] at hw⟩
    · rw [if_pos hc, if_neg hg]
      exact ⟨_, _, rfl, Or.inr ⟨_, rfl⟩, fun hwf => by simp [hwf] at hw⟩
  · rw [if_neg hc]
    exact ⟨e, st, rfl, Or.inl rfl, fun _ => ⟨rfl, rfl⟩⟩

theorem resolve_scan_none (st : EngineState) (dom : Option Str) (w : Bool)
    (d : Str)
    (hload : truthyStr st.data_source = true)
    (hnorm : _normalise_domain dom = .ok d)
    (hscan : scanEntries d st.entries = none) :
    organisational_context_for_domain st dom w = .ok (none, st) := by
  simp only [resolve_eq_of_scan st dom w d hload hnorm, hscan]

/-- C1: For a loaded registry and a valid input domain, if the entry at
index `i` is the first whose `domain_pattern` equals the normalized domain
exactly, then `organisational_context_for_domain` returns that entry — an
exact match wins over any wildcard match wherever the two entries sit in
registry order — and the scan short-circuits at the first exact match: the
result does not depend on what follows position `i`. -/
theorem C1_exact_match_wins (st : EngineState) (dom : Option Str) (w : Bool)
    (d : Str) (i : Nat) (e : DomainEntry)
    (hload : truthyStr st.data_source = true)
    (hnorm : _normalise_domain dom = .ok d)
    (hget : st.entries[i]? = some e)
    (hpat : patternOf e = d)
    (hfirst : ∀ j, j < i → Option.map patternOf st.entries[j]? ≠ some d) :
    (∃ r st', organisational_context_for_domain st dom w = .ok (some r, st') ∧
        (r = e ∨ ∃ g, r = enrichWith e g) ∧ (w = false → r = e ∧ st' = st)) ∧
    (∀ tail, ∃ r st',
        organisational_context_for_domain
            { st with entries := st.entries.take (i + 1) ++ tail } dom w =
          .ok (some r, st') ∧ (r = e ∨ ∃ g, r = enrichWith e g)) := by
  have hd : d ≠ [] := norm_ok_ne_nil hnorm
  have hi : i < st.entries.length := by
    rcases List.getElem?_eq_some.mp hget with ⟨h, _⟩
    exact h
  constructor
  · have hscan : scanEntries d st.entries = some (i, e) := by
      have := scanFrom_exactFirst hd st.entries 0 i none e hget hpat hfirst
      simpa [scanEntries] using this
    exact resolve_of_scan_some st dom w d i e hload hnorm hscan
  · intro tail
    have hlen : i < (st.entries.take (i + 1)).length := by
      simp [List.length_take]
      omega
    have hget2 : (st.entries.take (i + 1) ++ tail)[i]? = some e := by
      rw [List.getElem?_append_left hlen, List.getElem?_take_of_lt (Nat.lt_succ_self i)]
      exact hget
    have hfirst2 : ∀ j, j < i →
        Option.map patternOf (st.entries.take (i + 1) ++ tail)[j]? ≠ some d := by
      intro j hj
      rw [List.getElem?_append_left (by omega : j < (st.entries.take (i + 1)).length),
        List.getElem?_take_of_lt (by omega : j < i + 1)]
      exact hfirst j hj
    have hscan2 : scanEntries d (st.entries.take (i + 1) ++ tail) = some (i, e) := by
      have := scanFrom_exactFirst hd (st.entries.take (i + 1) ++ tail) 0 i none e
        hget2 hpat hfirst2
      simpa [scanEntries] using this
    obtain ⟨r, st', h1, h2, _⟩ :=
      resolve_of_scan_some { st with entries := st.entries.take (i + 1) ++ tail }
        dom w d i e hload hnorm hscan2
    exact ⟨r, st', h1, h2⟩

theorem C1_witness :
    (∃ r st', organisational_context_for_domain st0 (some "a.gov.uk".toList) false =
        .ok (some r, st') ∧
        (r = entryExact ∨ ∃ g, r = enrichWith entryExact g) ∧
        (false = false → r = entryExact ∧ st' = st0)) ∧
    (∀ tail, ∃ r st',
        organisational_context_for_domain
            { st0 with entries := st0.entries.take 2 ++ tail }
            (some "a.gov.uk".toList) false =
          .ok (some r, st') ∧ (r = entryExact ∨ ∃ g, r = enrichWith entryExact g)) :=
  C1_exact_match_wins st0 (some "a.gov.uk".toList) false "a.gov.uk".toList 1
    entryExact (by decide) (by decide) (by decide) (by decide)
    (by decide)

/-- C2: For a loaded registry and a valid domain with no exact-matching
entry, `organisational_context_for_domain` returns the last entry in
registry order whose `domain_pattern` starts with `"*."` and whose suffix
(the pattern minus the leading `"*"`) the normalized domain ends with; and
when nothing matches at all it returns no match (`none`), not an error. -/
theorem C2_last_wildcard_or_none (st : EngineState) (dom : Option Str)
    (w : Bool) (d : Str)
    (hload : truthyStr st.data_source = true)
    (hnorm : _normalise_domain dom = .ok d)
    (hnoexact : ∀ e ∈ st.entries, patternOf e ≠ d) :
    ((∀ e ∈ st.entries, wcCandidate (patternOf e) d = false) →
      organisational_context_for_domain st dom w = .ok (none, st)) ∧
    (∀ i e, st.entries[i]? = some e → wcCandidate (patternOf e) d = true →
      (∀ k, k < st.entries.length → i < k →
        Option.map (fun x => wcCandidate (patternOf x) d) st.entries[k]? = some false) →
      ∃ r st', organisational_context_for_domain st dom w = .ok (some r, st') ∧
        (r = e ∨ ∃ g, r = enrichWith e g) ∧ (w = false → r = e ∧ st' = st)) := by
  constructor
  · intro hnowc
    have hscan : scanEntries d st.entries = none := by
      have := scanFrom_noMatch st.entries 0 none
        (fun e he => ⟨hnoexact e he, hnowc e he⟩)
      simpa [scanEntries] using this
    exact resolve_scan_none st dom w d hload hnorm hscan
  · intro i e hget hwc hlast
    have hlast' : ∀ j, i < j → ∀ e', st.entries[j]? = some e' →
        wcCandidate (patternOf e') d = false := by
      intro j hj e' hg
      by_cases hjl : j < st.entries.length
      · have := hlast j hjl hj
        rw [hg] at this
        simpa using this
      · rw [List.getElem?_eq_none (by omega)] at hg
        cases hg
    have hscan : scanEntries d st.entries = some (i, e) := by
      have := scanFrom_lastWc st.entries 0 i none e hnoexact hget hwc hlast'
      simpa [scanEntries] using this
    exact resolve_of_scan_some st dom w d i e hload hnorm hscan

theorem C2_witness :
    ((∀ e ∈ st0.entries, wcCandidate (patternOf e) "q.x.y".toList = false) →
      organisational_context_for_domain st0 (some "q.x.y".toList) false =
        .ok (none, st0)) ∧
    (∀ i e, st0.entries[i]? = some e →
      wcCandidate (patternOf e) "q.x.y".toList = true →
      (∀ k, k < st0.entries.length → i < k →
        Option.map (fun x => wcCandidate (patternOf x) "q.x.y".toList)
          st0.entries[k]? = some false) →
      ∃ r st', organisational_context_for_domain st0 (some "q.x.y".toList) false =
        .ok (some r, st') ∧
        (r = e ∨ ∃ g, r = enrichWith e g) ∧ (false = false → r = e ∧ st' = st0)) :=
  C2_last_wildcard_or_none st0 (some "q.x.y".toList) false "q.x.y".toList
    (by decide) (by decide) (by decide)

/-- C8: Round-trip — for a loaded registry and a literal (non-wildcard)
`domain_pattern` P borne by exactly one entry and already in normal form,
resolving P returns exactly that entry. -/
theorem C8_round_trip (st : EngineState) (P : Str) (w : Bool) (e : DomainEntry)
    (hload : truthyStr st.data_source = true)
    (hnorm : _normalise_domain (some P) = .ok P)
    (_hlit : ['*', '.'].isPrefixOf P = false)
    (hmem : e ∈ st.entries)
    (hpat : patternOf e = P)
    (huniq : ∀ x ∈ st.entries, patternOf x = P → x = e) :
    ∃ r st', organisational_context_for_domain st (some P) w = .ok (some r, st') ∧
      (r = e ∨ ∃ g, r = enrichWith e g) ∧ (w = false → r = e ∧ st' = st) := by
  have hd : P ≠ [] := norm_ok_ne_nil hnorm
  obtain ⟨j, hscanj⟩ := scanFrom_uniqueExact hd st.entries 0 none e hmem hpat huniq
  exact resolve_of_scan_some st (some P) w P j e hload hnorm hscanj

theorem C8_witness :
    ∃ r st', organisational_context_for_domain st0 (some "gov.uk".toList) false =
      .ok (some r, st') ∧
      (r = entryPlain ∨ ∃ g, r = enrichWith entryPlain g) ∧
      (false = false → r = entryPlain ∧ st' = st0) :=
  C8_round_trip st0 "gov.uk".toList false entryPlain (by decide) (by decide)
    (by decide) (by decide) (by decide) (by decide)

/-- C9: A wildcard pattern `*.S` records a candidate for a normalized
domain `d` iff `d` ends with `.S` (dot included); in particular the bare
domain `S` is never matched by the wildcard entry `*.S`. -/
theorem C9_wildcard_excludes_bare (S d : Str) :
    (wcCandidate ('*' :: '.' :: S) d = true ↔ ('.' :: S).isSuffixOf d = true) ∧
    wcCandidate ('*' :: '.' :: S) S = false := by
  have hpre : ['*', '.'].isPrefixOf ('*' :: '.' :: S) = true := by
    simp [List.isPrefixOf]
  constructor
  · simp [wcCandidate, hpre]
  · rw [wcCandidate, hpre]
    simp only [Bool.true_and, List.drop_succ_cons, List.drop_zero]
    have hns : ¬ (('.' :: S) <:+ S) := by
      intro hsuf
      have := hsuf.length_le
      simp at this
    rw [Bool.eq_false_iff]
    intro h
    exact hns (List.isSuffixOf_iff_suffix.mp h)

theorem patternOf_enrich (e : DomainEntry) (g : OrgRec) :
    patternOf (enrichWith e g) = patternOf e := rfl

theorem resolve_ok_inv (st : EngineState) (dom : Option Str) (w : Bool)
    (r : DomainEntry) (st' : EngineState)
    (h : organisational_context_for_domain st dom w = .ok (some r, st')) :
    ∃ d i e, _normalise_domain dom = .ok d ∧ scanEntries d st.entries = some (i, e) ∧
      (r = e ∨ ∃ g, r = enrichWith e g) := by
  simp only [organisational_context_for_domain] at h
  by_cases hl : truthyStr st.data_source = true
  · rw [if_pos hl] at h
    cases hn : _normalise_domain dom with
    | error err => simp only [hn] at h; cases h
    | ok d =>
      cases hs : scanEntries d st.entries with
      | none => simp only [hn, hs] at h; simp at h
      | some ie =>
        obtain ⟨i, e⟩ := ie
        simp only [hn, hs] at h
        refine ⟨d, i, e, rfl, hs, ?_⟩
        by_cases hc : (truthyStr e.organisation_id && w) = true
        · rw [if_pos hc] at h
          by_cases hg : lookupOrg st.orgDir (e.organisation_id.getD []) = []
          · rw [if_pos hg] at h
            simp at h
            exact Or.inl h.1.symm
          · rw [if_neg hg] at h
            simp at h
            exact Or.inr ⟨_, h.1.symm⟩
        · rw [if_neg hc] at h
          simp at h
          exact Or.inl h.1.symm
  · rw [if_neg hl] at h
    cases h

theorem resolve_ok_pattern (st : EngineState) (dom : Option Str) (w : Bool)
    (r : DomainEntry) (st' : EngineState)
    (h : organisational_context_for_domain st dom w = .ok (some r, st')) :
    ∃ p, r.domain_pattern = some p ∧ p ≠ [] := by
  obtain ⟨d, i, e, _, hs, hre⟩ := resolve_ok_inv st dom w r st' h
  have hpe : patternOf e ≠ [] := (scanEntries_sound hs).2.1
  have hpr : patternOf r ≠ [] := by
    cases hre with
    | inl hh => rw [hh]; exact hpe
    | inr hh => obtain ⟨g, hg⟩ := hh; rw [hg, patternOf_enrich]; exact hpe
  cases hdp : r.domain_pattern with
  | none => rw [patternOf, hdp] at hpr; simp at hpr
  | some p =>
    refine ⟨p, rfl, ?_⟩
    rw [patternOf, hdp] at hpr
    simpa using hpr

/-- C10: Entries whose `domain_pattern` is missing, null or empty are
skipped by the scan and never returned: every entry resolution returns
bears a non-empty `domain_pattern`; consequently `is_ukps_domain` and
`is_ukps_email` answer `true` exactly when resolution finds a match. -/
theorem C10_empty_patterns_never_returned :
    (∀ st dom w r st',
        organisational_context_for_domain st dom w = .ok (some r, st') →
        ∃ p, r.domain_pattern = some p ∧ p ≠ []) ∧
    (∀ st dom b, is_ukps_domain st dom = .ok b →
        (b = true ↔
          ∃ r st', organisational_context_for_domain st dom false = .ok (some r, st'))) ∧
    (∀ st em b, is_ukps_email st em = .ok b →
        (b = true ↔
          ∃ r st', organisational_context_for_email st em false = .ok (some r, st'))) := by
  refine ⟨resolve_ok_pattern, ?_, ?_⟩
  · intro st dom b h
    simp only [is_ukps_domain] at h
    cases hr : organisational_context_for_domain st dom false with
    | error err => rw [hr] at h; cases h
    | ok out =>
      obtain ⟨ctx, st2⟩ := out
      rw [hr] at h
      cases ctx with
      | none =>
        simp at h
        subst h
        constructor
        · intro hb; cases hb
        · rintro ⟨r, st', hx⟩
          simp at hx
      | some r =>
        simp at h
        obtain ⟨p, hp, _⟩ := resolve_ok_pattern st dom false r st2 hr
        constructor
        · intro _; exact ⟨r, st2, rfl⟩
        · intro _
          rw [← h, hp]
          rfl
  · intro st em b h
    simp only [is_ukps_email] at h
    cases hr : organisational_context_for_email st em false with
    | error err => rw [hr] at h; cases h
    | ok out =>
      obtain ⟨ctx, st2⟩ := out
      rw [hr] at h
      cases ctx with
      | none =>
        simp at h
        subst h
        constructor
        · intro hb; cases hb
        · rintro ⟨r, st', hx⟩
          simp at hx
      | some r =>
        simp at h
        obtain ⟨p, hp, _⟩ := resolve_ok_pattern st (_extract_domain_from_email em)
          false r st2 hr
        constructor
        · intro _; exact ⟨r, st2, rfl⟩
        · intro _
          rw [← h, hp]
          rfl

theorem C10_witness :
    (∃ p, entryExact.domain_pattern = some p ∧ p ≠ []) ∧
    (true = true ↔
      ∃ r st', organisational_context_for_domain st0 (some "a.gov.uk".toList) false =
        .ok (some r, st')) := by
  constructor
  · exact C10_empty_patterns_never_returned.1 st0 (some "a.gov.uk".toList) false
      entryExact st0 (by decide)
  · exact C10_empty_patterns_never_returned.2.1 st0 (some "a.gov.uk".toList) true
      (by decide)

/-- C7 counterexample: with enrichment requested, a lookup rewrites the
stored matched entry in place (`govuk_data` is attached to the registry
entry itself), so the snapshot after the call differs from the one before. -/
theorem C7_counterexample :
    organisational_context_for_domain st0 (some "a.gov.uk".toList) true =
      .ok (some (enrichWith entryExact [("name".toList, "Org One".toList)]),
           { entries := [entryWildcard,
               enrichWith entryExact [("name".toList, "Org One".toList)], entryPlain],
             orgDir := orgDir0, data_source := some localTag }) ∧
    [entryWildcard, enrichWith entryExact [("name".toList, "Org One".toList)],
      entryPlain] ≠ st0.entries := by
  constructor
  · decide
  · decide

/-- C7 (amended): a lookup without enrichment never mutates the snapshot;
with enrichment requested the only possible write is attaching `govuk_data`
to the matched stored entry, at the matched index, and the returned entry is
exactly the value written there (the stored entry the result aliases); the
organisation directory, the provenance tag, and every field of every entry
other than `govuk_data` are unchanged. -/
theorem C7_mutation_only_enrichment (st : EngineState) (dom : Option Str)
    (w : Bool) (out : Option DomainEntry × EngineState)
    (h : organisational_context_for_domain st dom w = .ok out) :
    out.2.orgDir = st.orgDir ∧ out.2.data_source = st.data_source ∧
      out.2.entries.map sansGov = st.entries.map sansGov ∧
      (w = false → out.2 = st) ∧
      (out.2.entries = st.entries ∨
        ∃ d i e, _normalise_domain dom = .ok d ∧
          scanEntries d st.entries = some (i, e) ∧ st.entries[i]? = some e ∧
          out.1 = some (enrichWith e (lookupOrg st.orgDir (e.organisation_id.getD []))) ∧
          out.2.entries = st.entries.set i
            (enrichWith e (lookupOrg st.orgDir (e.organisation_id.getD [])))) := by
  simp only [organisational_context_for_domain] at h
  by_cases hl : truthyStr st.data_source = true
  · rw [if_pos hl] at h
    cases hn : _normalise_domain dom with
    | error err => simp only [hn] at h; cases h
    | ok d =>
      cases hs : scanEntries d st.entries with
      | none =>
        simp only [hn, hs] at h
        simp at h
        rw [← h]
        exact ⟨rfl, rfl, rfl, fun _ => rfl, Or.inl rfl⟩
      | some ie =>
        obtain ⟨i, e⟩ := ie
        simp only [hn, hs] at h
        have hget : st.entries[i]? = some e := (scanEntries_sound hs).1
        by_cases hc : (truthyStr e.organisation_id && w) = true
        · have hw : w = true := by cases w <;> simp_all
          rw [if_pos hc] at h
          by_cases hg : lookupOrg st.orgDir (e.organisation_id.getD []) = []
          · rw [if_pos hg] at h
            simp at h
            rw [← h]
            exact ⟨rfl, rfl, rfl, fun _ => rfl, Or.inl rfl⟩
          · rw [if_neg hg] at h
            simp at h
            rw [← h]
            refine ⟨rfl, rfl, ?_, ?_, ?_⟩
            · rw [List.map_set]
              have hmg : (st.entries.map sansGov)[i]? = some (sansGov e) := by
                rw [List.getElem?_map, hget]
                rfl
              have : sansGov (enrichWith e (lookupOrg st.orgDir (e.organisation_id.getD []))) =
                  sansGov e := rfl
              rw [this]
              exact setSame (st.entries.map sansGov) i (sansGov e) hmg
            · intro hwf
              rw [hwf] at hw
              cases hw
            · exact Or.inr ⟨d, i, e, rfl, hs, hget, rfl, rfl⟩
        · rw [if_neg hc] at h
          simp at h
          rw [← h]
          exact ⟨rfl, rfl, rfl, fun _ => rfl, Or.inl rfl⟩
  · rw [if_neg hl] at h
    cases h

theorem C7_witness :
    stEnriched.orgDir = st0.orgDir ∧ stEnriched.data_source = st0.data_source ∧
      stEnriched.entries.map sansGov = st0.entries.map sansGov ∧
      (true = false → stEnriched = st0) ∧
      (stEnriched.entries = st0.entries ∨
        ∃ d i e, _normalise_domain (some "a.gov.uk".toList) = .ok d ∧
          scanEntries d st0.entries = some (i, e) ∧ st0.entries[i]? = some e ∧
          (some (enrichWith entryExact govRec0) : Option DomainEntry) =
            some (enrichWith e (lookupOrg st0.orgDir (e.organisation_id.getD []))) ∧
          stEnriched.entries = st0.entries.set i
            (enrichWith e (lookupOrg st0.orgDir (e.organisation_id.getD [])))) :=
  C7_mutation_only_enrichment st0 (some "a.gov.uk".toList) true
    (some (enrichWith entryExact govRec0), stEnriched) (by decide)

theorem rstripDots_decomp (l : Str) :
    ∃ k, l = rstripDots l ++ List.replicate k '.' ∧
      (rstripDots l).getLast? ≠ some '.' := by
  refine ⟨(l.reverse.takeWhile (fun c => c = '.')).length, ?_, ?_⟩
  · have htw : l.reverse.takeWhile (fun c => c = '.') =
        List.replicate (l.reverse.takeWhile (fun c => c = '.')).length '.' := by
      apply List.eq_replicate_of_mem
      intro b hb
      have := List.mem_takeWhile_imp hb
      simpa using this
    calc l = l.reverse.reverse := (List.reverse_reverse l).symm
      _ = (l.reverse.takeWhile (fun c => c = '.') ++
            l.reverse.dropWhile (fun c => c = '.')).reverse := by
            rw [List.takeWhile_append_dropWhile]
      _ = rstripDots l ++ (l.reverse.takeWhile (fun c => c = '.')).reverse := by
            rw [List.reverse_append]; rfl
      _ = rstripDots l ++
            List.replicate (l.reverse.takeWhile (fun c => c = '.')).length '.' := by
            rw [htw, List.reverse_replicate]
            simp
  · intro hlast
    rw [rstripDots, List.getLast?_reverse] at hlast
    have hh := List.head?_dropWhile_not (fun c => decide (c = '.')) l.reverse
    rw [hlast] at hh
    simp at hh

/-- C4 counterexample: the claim says a single trailing `"."` is stripped,
but on `"a.b.."` the code strips both trailing dots, while the claim's
single-dot normalisation keeps one — the two disagree. -/
theorem C4_counterexample :
    _normalise_domain (some "a.b..".toList) = .ok "a.b".toList ∧
    normaliseSingleDot (some "a.b..".toList) = .ok "a.b.".toList ∧
    _normalise_domain (some "a.b..".toList) ≠ normaliseSingleDot (some "a.b..".toList) := by
  refine ⟨by decide, by decide, by decide⟩

/-- C4 (amended): `_normalise_domain` trims surrounding whitespace,
lower-cases, and strips all trailing `"."` characters (not just a single
one); it fails with `InvalidDomain` exactly when the result contains no
`"."` separator (which covers the empty result); in particular
`" Example.GOV.UK."` normalises to `"example.gov.uk"`. -/
theorem C4_normalise_all_trailing_dots :
    (∀ dom : Str, ∃ (r : Str) (k : Nat),
        pyLower (pyStrip dom) = r ++ List.replicate k '.' ∧
        r.getLast? ≠ some '.' ∧
        _normalise_domain (some dom) =
          (if '.' ∈ r then .ok r else .error .invalidDomain)) ∧
    _normalise_domain (some " Example.GOV.UK.".toList) = .ok "example.gov.uk".toList := by
  constructor
  · intro dom
    obtain ⟨k, hdec, hlast⟩ := rstripDots_decomp (pyLower (pyStrip dom))
    exact ⟨rstripDots (pyLower (pyStrip dom)), k, hdec, hlast, rfl⟩
  · decide

theorem dropWhile_at_mem : ∀ (r : Str), '@' ∈ r →
    ∃ t, r.dropWhile (fun c => c != '@') = '@' :: t := by
  intro r
  induction r with
  | nil => intro h; simp at h
  | cons c cs ih =>
    intro h
    by_cases hc : c = '@'
    · subst hc
      exact ⟨cs, by rw [List.dropWhile_cons_of_neg (by simp)]⟩
    · have hmem : '@' ∈ cs := by
        cases List.mem_cons.mp h with
        | inl hh => exact absurd hh.symm hc
        | inr hh => exact hh
      obtain ⟨t, ht⟩ := ih hmem
      exact ⟨t, by rw [List.dropWhile_cons_of_pos (by simp [hc]), ht]⟩

theorem extract_after_last_at (e : Str) (h : '@' ∈ e) :
    ∃ loc, e = loc ++ '@' :: (e.reverse.takeWhile (fun c => c != '@')).reverse ∧
      '@' ∉ (e.reverse.takeWhile (fun c => c != '@')).reverse := by
  have hmr : '@' ∈ e.reverse := by simpa using h
  obtain ⟨t, ht⟩ := dropWhile_at_mem e.reverse hmr
  refine ⟨t.reverse, ?_, ?_⟩
  · calc e = e.reverse.reverse := (List.reverse_reverse e).symm
      _ = (e.reverse.takeWhile (fun c => c != '@') ++
            e.reverse.dropWhile (fun c => c != '@')).reverse := by
            rw [List.takeWhile_append_dropWhile]
      _ = (e.reverse.dropWhile (fun c => c != '@')).reverse ++
            (e.reverse.takeWhile (fun c => c != '@')).reverse := by
            rw [List.reverse_append]
      _ = t.reverse ++ '@' :: (e.reverse.takeWhile (fun c => c != '@')).reverse := by
            rw [ht]
            simp
  · intro hmem
    have hmem' : '@' ∈ e.reverse.takeWhile (fun c => c != '@') := by simpa using hmem
    have := List.mem_takeWhile_imp hmem'
    simp at this

/-- C5 counterexample: for the email `"@gov.uk"` the local part is empty,
yet the code does not fail — it resolves the part after the `"@"` and
returns a match. -/
theorem C5_counterexample :
    _extract_domain_from_email (some "@gov.uk".toList) = some "gov.uk".toList ∧
    organisational_context_for_email st0 (some "@gov.uk".toList) false =
      .ok (some entryPlain, st0) := by
  refine ⟨by decide, by decide⟩

/-- C5 (amended): email resolution extracts the substring after the last
`"@"` and delegates to domain resolution on it; on a loaded snapshot it
fails with `InvalidDomain` when the email is `None`, empty, or contains no
`"@"`; an empty local part is not itself rejected — the outcome is whatever
domain resolution gives for the part after the last `"@"`. -/
theorem C5_email_after_last_at (st : EngineState) (email : Str) (w : Bool)
    (hload : truthyStr st.data_source = true) :
    organisational_context_for_email st none w = .error .invalidDomain ∧
    ((email = [] ∨ '@' ∉ email) →
      organisational_context_for_email st (some email) w = .error .invalidDomain) ∧
    ('@' ∈ email → ∃ loc dmn, email = loc ++ '@' :: dmn ∧ '@' ∉ dmn ∧
      organisational_context_for_email st (some email) w =
        organisational_context_for_domain st (some dmn) w) := by
  refine ⟨?_, ?_, ?_⟩
  · simp [organisational_context_for_email, _extract_domain_from_email,
      organisational_context_for_domain, hload, _normalise_domain]
  · intro hcond
    simp only [organisational_context_for_email, _extract_domain_from_email,
      if_pos hcond]
    simp [organisational_context_for_domain, hload, _normalise_domain]
  · intro hmem
    obtain ⟨loc, hsplit, hnot⟩ := extract_after_last_at email hmem
    refine ⟨loc, (email.reverse.takeWhile (fun c => c != '@')).reverse,
      hsplit, hnot, ?_⟩
    have hne : ¬ (email = [] ∨ '@' ∉ email) := by
      push_neg
      exact ⟨List.ne_nil_of_mem hmem, hmem⟩
    simp only [organisational_context_for_email, _extract_domain_from_email,
      if_neg hne]

theorem C5_witness :
    organisational_context_for_email st0 none false = .error .invalidDomain ∧
    (("u@gov.uk".toList = ([] : Str) ∨ '@' ∉ "u@gov.uk".toList) →
      organisational_context_for_email st0 (some "u@gov.uk".toList) false =
        .error .invalidDomain) ∧
    ('@' ∈ "u@gov.uk".toList →
      ∃ loc dmn, "u@gov.uk".toList = loc ++ '@' :: dmn ∧ '@' ∉ dmn ∧
        organisational_context_for_email st0 (some "u@gov.uk".toList) false =
          organisational_context_for_domain st0 (some dmn) false) :=
  C5_email_after_last_at st0 "u@gov.uk".toList false (by decide)

/-- C3 (failing run): the remote fetch succeeds for the first document and
fails for the second, and the local fallback fails.  `refresh` reports
failure, yet the store now pairs the remote copy of the first document with
the prior copy of the second — the previously loaded snapshot is gone and
the surviving data mixes two sources. -/
theorem C3_failed_refresh_mixes_documents :
    refresh true true remSrc locSrc UKPSDOMAINS_FILES priorSt =
      (false, ⟨[(udF, "remU".toList), (goF, "oldG".toList)], some localTag⟩) ∧
    (refresh true true remSrc locSrc UKPSDOMAINS_FILES priorSt).2.data ≠
      priorSt.data := by
  refine ⟨by decide, by decide⟩

theorem fetchLoop_flag (src : Str → Option Str) :
    ∀ (files : List Str) (d : DataDict) (res : Bool),
      (fetchLoop src files d res).1 = true ↔
        (if files = [] then res = true else ∀ f ∈ files, (src f).isSome = true) := by
  intro files
  induction files with
  | nil => intro d res; simp [fetchLoop]
  | cons f t ih =>
    intro d res
    cases hsrc : src f with
    | none => simp [fetchLoop, hsrc]
    | some doc =>
      simp only [fetchLoop, hsrc]
      rw [ih]
      cases t with
      | nil => simp [hsrc]
      | cons g u => simp [hsrc]

theorem remote_flag (u a : Bool) (rem : Str → Option Str) (files : List Str)
    (d : DataDict) (hne : files ≠ []) :
    (_fetch_remote u a rem files d).1 = true ↔ remoteAttemptOk u a rem files := by
  unfold _fetch_remote remoteAttemptOk
  cases u with
  | false => simp
  | true =>
    cases a with
    | false => simp
    | true => simp [fetchLoop_flag, hne]

theorem local_flag (loc : Str → Option Str) (files : List Str) (d : DataDict)
    (hne : files ≠ []) :
    (_load_local loc files d).1 = true ↔ localAttemptOk loc files := by
  unfold _load_local localAttemptOk
  simp [fetchLoop_flag, hne]

theorem resolve_norm_error (st : EngineState) (dom : Option Str) (w : Bool)
    (err : LookupErr) (hload : truthyStr st.data_source = true)
    (hnorm : _normalise_domain dom = .error err) :
    organisational_context_for_domain st dom w = .error err := by
  simp only [organisational_context_for_domain, hload, hnorm, if_true]

theorem lookupView_ignores_tag (entries : List DomainEntry)
    (orgDir : List (Str × OrgRec)) (s₁ s₂ : Str) (dom : Option Str) (w : Bool)
    (h₁ : s₁ ≠ []) (h₂ : s₂ ≠ []) :
    lookupView (organisational_context_for_domain ⟨entries, orgDir, some s₁⟩ dom w) =
    lookupView (organisational_context_for_domain ⟨entries, orgDir, some s₂⟩ dom w) := by
  have ht₁ : truthyStr (EngineState.data_source ⟨entries, orgDir, some s₁⟩) = true :=
    truthy_some_of_ne h₁
  have ht₂ : truthyStr (EngineState.data_source ⟨entries, orgDir, some s₂⟩) = true :=
    truthy_some_of_ne h₂
  cases hn : _normalise_domain dom with
  | error err =>
    rw [resolve_norm_error _ dom w err ht₁ hn, resolve_norm_error _ dom w err ht₂ hn]
  | ok d =>
    simp only [resolve_eq_of_scan ⟨entries, orgDir, some s₁⟩ dom w d ht₁ hn,
      resolve_eq_of_scan ⟨entries, orgDir, some s₂⟩ dom w d ht₂ hn]
    cases hs : scanEntries d entries with
    | none => rfl
    | some ie =>
      obtain ⟨i, e⟩ := ie
      simp only [hs]
      by_cases hc : (truthyStr e.organisation_id && w) = true
      · rw [if_pos hc, if_pos hc]
        by_cases hg : lookupOrg orgDir (e.organisation_id.getD []) = []
        · rw [if_pos hg, if_pos hg]
          rfl
        · rw [if_neg hg, if_neg hg]
          rfl
      · rw [if_neg hc, if_neg hc]
        rfl

/-- C6: `refresh` fails (the spec's `DataUnavailable`) exactly when the
remote attempt (counting a missing library or disallowed remote access as
failure) and the local attempt both fail to provide all required documents;
on success the snapshot is tagged `remote` or `local` according to which
attempt succeeded, and the tag has no effect on lookup behaviour. -/
theorem C6_data_unavailable_iff_both_fail (u a : Bool)
    (rem loc : Str → Option Str) (st : LoaderState) :
    ((refresh u a rem loc UKPSDOMAINS_FILES st).1 = false ↔
      ¬ remoteAttemptOk u a rem UKPSDOMAINS_FILES ∧
        ¬ localAttemptOk loc UKPSDOMAINS_FILES) ∧
    (remoteAttemptOk u a rem UKPSDOMAINS_FILES →
      (refresh u a rem loc UKPSDOMAINS_FILES st).2.data_source = some remoteTag) ∧
    (¬ remoteAttemptOk u a rem UKPSDOMAINS_FILES →
      localAttemptOk loc UKPSDOMAINS_FILES →
      (refresh u a rem loc UKPSDOMAINS_FILES st).2.data_source = some localTag) ∧
    (∀ entries orgDir s₁ s₂ dom w, s₁ ≠ [] → s₂ ≠ [] →
      lookupView (organisational_context_for_domain ⟨entries, orgDir, some s₁⟩ dom w) =
      lookupView (organisational_context_for_domain ⟨entries, orgDir, some s₂⟩ dom w)) := by
  have hne : UKPSDOMAINS_FILES ≠ [] := by simp [UKPSDOMAINS_FILES]
  have hrflag := remote_flag u a rem UKPSDOMAINS_FILES st.data hne
  have hlflag := local_flag loc UKPSDOMAINS_FILES
    (_fetch_remote u a rem UKPSDOMAINS_FILES st.data).2 hne
  cases hr : (_fetch_remote u a rem UKPSDOMAINS_FILES st.data).1 with
  | true =>
    have hro : remoteAttemptOk u a rem UKPSDOMAINS_FILES := hrflag.mp hr
    have hre : refresh u a rem loc UKPSDOMAINS_FILES st =
        (true, ⟨(_fetch_remote u a rem UKPSDOMAINS_FILES st.data).2, some remoteTag⟩) := by
      simp [refresh, hr]
    refine ⟨?_, ?_, ?_, fun entries orgDir s₁ s₂ dom w h₁ h₂ =>
      lookupView_ignores_tag entries orgDir s₁ s₂ dom w h₁ h₂⟩
    · simp [hre, hro]
    · intro _; simp [hre]
    · intro hnro _; exact absurd hro hnro
  | false =>
    have hnro : ¬ remoteAttemptOk u a rem UKPSDOMAINS_FILES := by
      intro h
      rw [hrflag.mpr h] at hr
      cases hr
    cases hl : (_load_local loc UKPSDOMAINS_FILES
        (_fetch_remote u a rem UKPSDOMAINS_FILES st.data).2).1 with
    | true =>
      have hlo : localAttemptOk loc UKPSDOMAINS_FILES := hlflag.mp hl
      have hre : refresh u a rem loc UKPSDOMAINS_FILES st =
          (true, ⟨(_load_local loc UKPSDOMAINS_FILES
            (_fetch_remote u a rem UKPSDOMAINS_FILES st.data).2).2, some localTag⟩) := by
        simp [refresh, hr, hl]
      refine ⟨?_, ?_, ?_, fun entries orgDir s₁ s₂ dom w h₁ h₂ =>
        lookupView_ignores_tag entries orgDir s₁ s₂ dom w h₁ h₂⟩
      · simp [hre, hlo]
      · intro hro; exact absurd hro hnro
      · intro _ _; simp [hre]
    | false =>
      have hnlo : ¬ localAttemptOk loc UKPSDOMAINS_FILES := by
        intro h
        rw [hlflag.mpr h] at hl
        cases hl
      have hre : refresh u a rem loc UKPSDOMAINS_FILES st =
          (false, ⟨(_load_local loc UKPSDOMAINS_FILES
            (_fetch_remote u a rem UKPSDOMAINS_FILES st.data).2).2, st.data_source⟩) := by
        simp [refresh, hr, hl]
      refine ⟨?_, ?_, ?_, fun entries orgDir s₁ s₂ dom w h₁ h₂ =>
        lookupView_ignores_tag entries orgDir s₁ s₂ dom w h₁ h₂⟩
      · simp [hre, hnro, hnlo]
      · intro hro; exact absurd hro hnro
      · intro _ hlo; exact absurd hlo hnlo

theorem C6_witness :
    (refresh true true (fun _ => some "docR".toList) (fun _ => some "docL".toList)
        UKPSDOMAINS_FILES priorSt).2.data_source = some remoteTag :=
  (C6_data_unavailable_iff_both_fail true true (fun _ => some "docR".toList)
    (fun _ => some "docL".toList) priorSt).2.1 ⟨rfl, rfl, by decide⟩
